import Mathlib

/-!
Verification development for the forward-computation graph of
`models/eff_acat.py` (corruption-resilient forecasting transformer).

Modelling conventions:
* A sequence tensor of shape (time, feature) is a `List (List ℚ)` (rows are
  timesteps); a batched tensor (batch, time, feature) is a `List` of those.
  Floating-point numerics are abstracted by exact rationals.
* Library calls whose internals are outside this file's scope (gpytorch
  posterior mean/variance, `nn.BatchNorm1d` statistics, `torch.exp`,
  `torch.sin`/`cos`/`pow`, `nn.LayerNorm`) are carried as function-valued
  parameters of the model structure; the data flow between them is embedded
  from the source.
* Randomness (`torch.randn_like`) is externalized: noise tensors are explicit
  arguments, and the global RNG subsystems are an explicit state record.
* Fallible tensor operations (shape-checked slice assignment, broadcasting
  addition) return `Option`, with `none` for the shape errors the backend
  raises.
-/

/-! ## Generic list helpers -/

/-- `tabulate n f = [f 0, f 1, …, f (n-1)]`; models `np.arange`/`range`-built
rows. -/
def tabulate : (n : ℕ) → (ℕ → α) → List α
  | 0, _ => []
  | n + 1, f => f 0 :: tabulate n (fun i => f (i + 1))

/-- Sequencing an option-valued map over a list: the first failure aborts,
modelling a Python loop of fallible tensor assignments. -/
def seqMap (f : α → Option β) : List α → Option (List β)
  | [] => some []
  | a :: as =>
    match f a, seqMap f as with
    | some b, some bs => some (b :: bs)
    | _, _ => none

/-- Elementwise sum of two feature vectors. -/
def vecAdd (a b : List ℚ) : List ℚ := List.zipWith (fun x y => x + y) a b

/-- Elementwise sum of two (time, feature) matrices. -/
def matAdd (a b : List (List ℚ)) : List (List ℚ) := List.zipWith vecAdd a b

/-- Elementwise (Hadamard) product of two matrices. -/
def hadamard (a b : List (List ℚ)) : List (List ℚ) :=
  List.zipWith (List.zipWith (fun x y => x * y)) a b

/-- Scale every entry of a matrix. -/
def matScale (c : ℚ) (a : List (List ℚ)) : List (List ℚ) :=
  a.map (fun r => r.map (fun x => c * x))

/-- Apply a scalar function entrywise. -/
def matMap (f : ℚ → ℚ) (a : List (List ℚ)) : List (List ℚ) :=
  a.map (fun r => r.map f)

/-- Matrix transpose; models `Tensor.permute(0, 2, 1)` on one batch element. -/
def transposeM (a : List (List ℚ)) : List (List ℚ) := List.transpose a

/-- Dot product of two vectors. -/
def dotProd (a b : List ℚ) : ℚ := (List.zipWith (fun x y => x * y) a b).sum

/-- One affine row: `W·v + b` for a weight matrix given by rows `W`. -/
def linRow (W : List (List ℚ)) (b : List ℚ) (v : List ℚ) : List ℚ :=
  List.zipWith (fun wr bo => dotProd wr v + bo) W b

/-- `nn.Linear` applied timestep-wise to a (time, feature) matrix. -/
def linRows (W : List (List ℚ)) (b : List ℚ) (m : List (List ℚ)) : List (List ℚ) :=
  m.map (linRow W b)

/-- Mean of a vector of rationals; models `Tensor.mean()` over the listed
elements. -/
def vecMean (v : List ℚ) : ℚ := v.sum / (v.length : ℚ)

/-- Mean over the last axis of a (time, feature) matrix (`mean(dim=-1)`). -/
def meanLastDim (m : List (List ℚ)) : List ℚ := m.map vecMean

/-- Python negative slicing `t[-n:]` along the time axis: for `n = 0` it is
`t[0:]`, i.e. the whole tensor; otherwise the final `n` rows. -/
def lastRows (n : ℕ) (m : List (List ℚ)) : List (List ℚ) :=
  if n = 0 then m else m.drop (m.length - n)

/-- Four-way elementwise zip, used for the broadcast KL formula. -/
def zip4With (f : ℚ → ℚ → ℚ → ℚ → ℚ) :
    List ℚ → List ℚ → List ℚ → List ℚ → List ℚ
  | a :: as, b :: bs, c :: cs, d :: ds => f a b c d :: zip4With f as bs cs ds
  | _, _, _, _ => []

/-! ## `get_attn_subsequent_mask` and the decoder stack (source lines 23–27,
228–250) -/

/-- `np.triu(np.ones([B, T, T]), k=1)` cast to int: entry `(b, i, j)` is `1`
exactly when `j ≥ i + 1`. -/
def get_attn_subsequent_mask (batch seqLen : ℕ) : List (List (List ℕ)) :=
  List.replicate batch
    (tabulate seqLen (fun i => tabulate seqLen (fun j => if i + 1 ≤ j then 1 else 0)))

/-- Entry accessor for a (batch, T, T) integer mask. -/
def maskEntry (m : List (List (List ℕ))) (b i j : ℕ) : ℕ :=
  ((m.getD b []).getD i []).getD j 0

/-- The mask type threaded into each decoder layer (`None` = no mask). -/
abbrev MaskOpt := Option (List (List (List ℕ)))

/-- A decoder layer as consumed by `Decoder.forward`: it receives the running
decoder activations, the encoder output, the self-attention mask and the
cross-attention mask. Its internals (two attention blocks plus feed-forward)
are irrelevant to the mask-threading claim. -/
abbrev DecLayerF :=
  List (List (List ℚ)) → List (List (List ℚ)) → MaskOpt → MaskOpt → List (List (List ℚ))

/-- `Decoder.forward`: positional embedding, then one mask computed from the
decoder input (`size(0)` batch, `size(1)` time) and every layer applied with
that same self-attention mask and no cross-attention mask. The second
component records the `(self-mask, cross-mask)` pair actually handed to each
layer, in order. -/
def decoderForwardTrace (posEmb : List (List (List ℚ)) → List (List (List ℚ)))
    (layers : List DecLayerF) (decIn encOut : List (List (List ℚ))) :
    List (List (List ℚ)) × List (MaskOpt × MaskOpt) :=
  let dec0 := posEmb decIn
  let mask := get_attn_subsequent_mask decIn.length (decIn.headD []).length
  layers.foldl
    (fun acc layer => (layer acc.1 encOut (some mask) none, acc.2 ++ [(some mask, none)]))
    (dec0, [])

/-! ## `MultiHeadAttention` construction and strategy dispatch (source lines
49–95) -/

/-- The attention strategies reachable from `MultiHeadAttention.forward`. -/
inductive Strategy where
  | ACAT
  | KittyCatConv
  | BasicAttn
  | LogTrans
  | ProbAttention
  | AutoCorrelation
deriving DecidableEq

/-- Does `needle` occur at the head of `hay`? (helper for Python `in`). -/
def seqStartsWith : List Char → List Char → Bool
  | [], _ => true
  | _ :: _, [] => false
  | n :: ns, h :: hs => n == h && seqStartsWith ns hs

/-- Python substring containment `needle in hay` over the character lists. -/
def containsSeq (needle : List Char) : List Char → Bool
  | [] => seqStartsWith needle []
  | h :: hs => seqStartsWith needle (h :: hs) || containsSeq needle hs

/-- The configuration stored by `MultiHeadAttention.__init__` (the four linear
projections are learned weights, immaterial to the dispatch claim). -/
structure MultiHeadAttention where
  d_model : ℕ
  d_k : ℕ
  d_v : ℕ
  n_heads : ℕ
  attn_type : String
  seed : ℕ
deriving DecidableEq

/-- `MultiHeadAttention.__init__` as a fallible constructor: the source body
only stores its arguments and has no validation path, so it never fails. -/
def MultiHeadAttention.init (d_model d_k d_v n_heads : ℕ) (attn_type : String)
    (seed : ℕ) : Option MultiHeadAttention :=
  some ⟨d_model, d_k, d_v, n_heads, attn_type, seed⟩

/-- The strategy chosen by the `if/elif/else` chain in
`MultiHeadAttention.forward`; the final `else` is `AutoCorrelation`. -/
def selectStrategy (attn_type : String) : Strategy :=
  if attn_type = "ACAT" then .ACAT
  else if containsSeq "KittyCat".toList attn_type.toList then .KittyCatConv
  else if attn_type = "basic_attn" then .BasicAttn
  else if attn_type = "LogTrans" then .LogTrans
  else if attn_type = "informer" then .ProbAttention
  else .AutoCorrelation

/-- The tags recognized by a dedicated branch of the dispatch chain. -/
def isRecognized (attn_type : String) : Bool :=
  attn_type = "ACAT" || containsSeq "KittyCat".toList attn_type.toList ||
    attn_type = "basic_attn" || attn_type = "LogTrans" || attn_type = "informer"

/-! ## `PositionalEncoding` (source lines 30–44) -/

/-- Number of slots of the strided slice `row[0::2]` (flag `true`) or
`row[1::2]` (flag `false`) of a row of width `d`. -/
def stride2Count : Bool → ℕ → ℕ
  | true, d => (d + 1) / 2
  | false, d => d / 2

/-- Write `vals` positionally into the stride-2 slice of `row` selected by
`flag` (`true` = positions 0,2,…; `false` = positions 1,3,…), keeping the other
entries. Callers establish the shape compatibility separately, exactly as the
backend checks shapes before its elementwise copy. -/
def fillStride2 : Bool → List ℚ → List ℚ → List ℚ
  | _, [], _ => []
  | _, r :: rs, [] => r :: rs
  | true, _ :: rest, v :: vs => v :: fillStride2 false rest vs
  | false, x :: rest, v :: vs => x :: fillStride2 true rest (v :: vs)

/-- The sliced assignment `P[:, :, 0::2 or 1::2] = V` for `P` of row width
`dstW` and `V` of row width `srcW`: it succeeds when the source width equals
the slice width, or broadcasts when the source width is `1` (numpy/torch
broadcasting, a size-1 dimension expands to any size, including 0); any other
width mismatch is the backend's shape error. -/
def assignSlice2 (flag : Bool) (dstW srcW : ℕ) (P V : List (List ℚ)) :
    Option (List (List ℚ)) :=
  if srcW = stride2Count flag dstW then
    some (List.zipWith (fun p v => fillStride2 flag p v) P V)
  else if srcW = 1 then
    some (List.zipWith
      (fun p v => fillStride2 flag p (List.replicate (stride2Count flag dstW) (v.headD 0)))
      P V)
  else none

/-- The angle fed to sin/cos: position `p` divided by `10000^(k/d)`, with the
power carried by the abstract `pw`. -/
def angle (pw : ℚ → ℚ) (p k d : ℕ) : ℚ := (p : ℚ) / pw ((k : ℚ) / (d : ℚ))

/-- The frequency matrix `X` of `PositionalEncoding.__init__`: `maxLen` rows,
one column per element of `arange(0, d_hid, 2)` (that is `⌈d_hid / 2⌉`
columns). -/
def freqX (pw : ℚ → ℚ) (d_hid maxLen : ℕ) : List (List ℚ) :=
  tabulate maxLen (fun p => tabulate ((d_hid + 1) / 2) (fun c => angle pw p (2 * c) d_hid))

/-- `PositionalEncoding.__init__`: a zero table `P` of shape
(maxLen, d_hid), the frequency matrix `X` with one column per element of
`arange(0, d_hid, 2)`, then the two sliced assignments
`P[:, :, 0::2] = sin X` and `P[:, :, 1::2] = cos X`. Returns `none` if either
assignment is a shape error. -/
def buildP (sinf cosf pw : ℚ → ℚ) (d_hid maxLen : ℕ) : Option (List (List ℚ)) :=
  (assignSlice2 true d_hid ((d_hid + 1) / 2)
      (List.replicate maxLen (List.replicate d_hid (0 : ℚ)))
      ((freqX pw d_hid maxLen).map (fun r => r.map sinf))).bind
    (fun P1 => assignSlice2 false d_hid ((d_hid + 1) / 2) P1
      ((freqX pw d_hid maxLen).map (fun r => r.map cosf)))

/-- Broadcasting elementwise addition of two vectors: equal lengths add
pointwise; a singleton expands against the other operand; anything else is a
shape error. -/
def bcastAdd1 (a b : List ℚ) : Option (List ℚ) :=
  if a.length = b.length then some (List.zipWith (fun x y => x + y) a b)
  else
    match a, b with
    | [x], _ => some (b.map (fun y => x + y))
    | _, [y] => some (a.map (fun x => x + y))
    | _, _ => none

/-- Broadcasting addition of two (time, feature) matrices, broadcasting first
along the time axis and then per row along the feature axis. -/
def bcastAdd2 (A B : List (List ℚ)) : Option (List (List ℚ)) :=
  if A.length = B.length then seqMap (fun ab => bcastAdd1 ab.1 ab.2) (A.zip B)
  else
    match A, B with
    | [r], _ => seqMap (fun rb => bcastAdd1 r rb) B
    | _, [r] => seqMap (fun ra => bcastAdd1 ra r) A
    | _, _ => none

/-- `PositionalEncoding.forward`: `X + P[:, :X.shape[1], :]`, where the slice
truncates the table to the input's time length and the addition broadcasts
the table across the batch (modeled by adding the same slice to every batch
element). -/
def posEncForward (P : List (List ℚ)) (X : List (List (List ℚ))) :
    Option (List (List (List ℚ))) :=
  let T := (X.headD []).length
  seqMap (fun xb => bcastAdd2 xb (P.take T)) X

/-! ## `process_model` (source lines 253–347) -/

/-- The closed-form diagonal-Gaussian KL term of `normal_kl` (source lines
253–262), with `torch.exp` carried by the abstract `rexp`. -/
def normal_kl (rexp : ℚ → ℚ) (mean1 logvar1 mean2 logvar2 : ℚ) : ℚ :=
  (1 / 2) * (-1 + logvar2 - logvar1 + rexp (logvar1 - logvar2) +
    ((mean1 - mean2) ^ 2) * rexp (-logvar2))

/-- Zero padding of one element on each side of a channel's time series
(`padding=1` of the 1-D convolution). -/
def pad1 (r : List ℚ) : List ℚ := 0 :: (r ++ [0])

/-- All width-3 sliding windows of a list, in order. -/
def windows3 : List ℚ → List (ℚ × ℚ × ℚ)
  | a :: b :: c :: rest => (a, b, c) :: windows3 (b :: c :: rest)
  | _ => []

/-- One 3-tap filter applied to a window. -/
def taps3 (w : List ℚ) (t : ℚ × ℚ × ℚ) : ℚ :=
  w.getD 0 0 * t.1 + w.getD 1 0 * t.2.1 + w.getD 2 0 * t.2.2

/-- One output channel of `nn.Conv1d(kernel_size=3, padding=1)`: the sum over
input channels of the 3-tap cross-correlation against the zero-padded input. -/
def convChannel (wo : List (List ℚ)) (xs : List (List ℚ)) : List ℚ :=
  (List.zipWith (fun wi xi => (windows3 (pad1 xi)).map (taps3 wi)) wo xs).foldl
    vecAdd (List.replicate (xs.headD []).length 0)

/-- `nn.Conv1d(in, out, kernel_size=3, padding=1)` on a (channel, time)
matrix: weight `w` has one (in-channel, 3-tap) block per output channel, bias
`b` one entry per output channel. -/
def conv1d (w : List (List (List ℚ))) (b : List ℚ) (xs : List (List ℚ)) :
    List (List ℚ) :=
  List.zipWith (fun wo bo => (convChannel wo xs).map (fun v => v + bo)) w b

/-- Softmax of one row: `exp` of each entry divided by the row's `exp`-sum. -/
def softmaxRow (rexp : ℚ → ℚ) (v : List ℚ) : List ℚ :=
  let e := v.map rexp
  e.map (fun x => x / e.sum)

/-- `nn.Softmax(dim=-1)` on a matrix: softmax along each row. On the permuted
(feature, time) layout the rows are feature channels, so this normalizes over
the *time* axis. -/
def softmaxRows (rexp : ℚ → ℚ) (m : List (List ℚ)) : List (List ℚ) :=
  m.map (softmaxRow rexp)

/-- The convolutional stack `nn.Sequential(Conv1d, Conv1d, BatchNorm1d,
Softmax(dim=-1))` as applied in `process_model.forward`: the (time, feature)
input is permuted to (feature, time), run through the stack, and permuted
back. `bn` is the batch-normalization module (its running statistics are
module state, carried abstractly). -/
def encStack (rexp : ℚ → ℚ) (w1 : List (List (List ℚ))) (b1 : List ℚ)
    (w2 : List (List (List ℚ))) (b2 : List ℚ)
    (bn : List (List ℚ) → List (List ℚ)) (xin : List (List ℚ)) : List (List ℚ) :=
  transposeM (softmaxRows rexp (bn (conv1d w2 b2 (conv1d w1 b1 (transposeM xin)))))

/-- All parameters and abstracted library calls of one `process_model`
instance (source lines 265–294). -/
structure PModel where
  d : ℕ
  encW1 : List (List (List ℚ))
  encB1 : List ℚ
  encW2 : List (List (List ℚ))
  encB2 : List ℚ
  bn1 : List (List ℚ) → List (List ℚ)
  musigW : List (List ℚ)
  musigB : List ℚ
  decW1 : List (List (List ℚ))
  decB1 : List ℚ
  decW2 : List (List (List ℚ))
  decB2 : List ℚ
  bn2 : List (List ℚ) → List (List ℚ)
  lnorm : List ℚ → List ℚ
  gp : Bool
  gpMeanX : List (List ℚ) → List ℚ
  gpVarX : List (List ℚ) → List ℚ
  gpMeanT : List ℚ → List ℚ
  gpVarT : List ℚ → List ℚ
  gpProjMeanW : List ℚ
  gpProjMeanB : List ℚ
  gpProjVarW : List ℚ
  gpProjVarB : List ℚ
  exp : ℚ → ℚ

/-- `nn.Linear(1, d)` applied to a (time, 1) tensor of scalars: each timestep
scalar `m` maps to the feature vector `w * m + b`. -/
def projScalar (w b : List ℚ) (m : List ℚ) : List (List ℚ) :=
  m.map (fun mt => List.zipWith (fun wf bf => wf * mt + bf) w b)

/-- The noised input of `process_model.forward` steps 1–2. In the source,
`x.add_(…)` is an *in-place* addition, so after this step the name `x` denotes
the noised tensor. -/
def pmNoisy (M : PModel) (x eps : List (List ℚ)) : List (List ℚ) :=
  if M.gp then
    matAdd x
      (matAdd (projScalar M.gpProjMeanW M.gpProjMeanB (M.gpMeanX x))
        (hadamard (projScalar M.gpProjVarW M.gpProjVarB (M.gpVarX x))
          (matScale (1 / 10) eps)))
  else matAdd x (matScale (1 / 10) eps)

/-- `musig`: the convolutional encoder output pushed through the
`nn.Linear(d, 2 d)` head. -/
def pmMusig (M : PModel) (x eps : List (List ℚ)) : List (List ℚ) :=
  linRows M.musigW M.musigB
    (encStack M.exp M.encW1 M.encB1 M.encW2 M.encB2 M.bn1 (pmNoisy M x eps))

/-- `mu = musig[:, :, :d]`. -/
def pmMu (M : PModel) (x eps : List (List ℚ)) : List (List ℚ) :=
  (pmMusig M x eps).map (List.take M.d)

/-- `sigma = musig[:, :, -d:]`. -/
def pmSigma (M : PModel) (x eps : List (List ℚ)) : List (List ℚ) :=
  (pmMusig M x eps).map (fun r => r.drop (r.length - M.d))

/-- The reparameterized latent `z = mu + exp(sigma * 0.5) * randn_like(sigma)`
with the standard-normal draw `zn` externalized. -/
def pmZ (M : PModel) (x eps zn : List (List ℚ)) : List (List ℚ) :=
  matAdd (pmMu M x eps)
    (hadamard (matMap (fun q => M.exp (q * (1 / 2))) (pmSigma M x eps)) zn)

/-- `y`: the latent decoded through the second convolutional stack. -/
def pmY (M : PModel) (x eps zn : List (List ℚ)) : List (List ℚ) :=
  encStack M.exp M.decW1 M.decB1 M.decW2 M.decB2 M.bn2 (pmZ M x eps zn)

/-- `process_model.forward` (source lines 296–347) on one batch element, with
the two `randn_like` draws (`eps` for the input noise, `zn` for the
reparameterization) passed explicitly. Because `x.add_` mutates `x` in place,
every later read of `x` — in particular the residual of line 332 — sees the
noised tensor. -/
def pmForward (M : PModel) (x eps zn : List (List ℚ)) (target : Option (List ℚ)) :
    List (List ℚ) × ℚ :=
  let x_noisy :=
    if M.gp then
      matAdd x
        (matAdd (projScalar M.gpProjMeanW M.gpProjMeanB (M.gpMeanX x))
          (hadamard (projScalar M.gpProjVarW M.gpProjVarB (M.gpVarX x))
            (matScale (1 / 10) eps)))
    else matAdd x (matScale (1 / 10) eps)
  let musig :=
    linRows M.musigW M.musigB
      (encStack M.exp M.encW1 M.encB1 M.encW2 M.encB2 M.bn1 x_noisy)
  let mu := musig.map (List.take M.d)
  let sigma := musig.map (fun r => r.drop (r.length - M.d))
  let z := matAdd mu (hadamard (matMap (fun q => M.exp (q * (1 / 2))) sigma) zn)
  let y := encStack M.exp M.decW1 M.decB1 M.decW2 M.decB2 M.bn2 z
  let output := (matAdd y x_noisy).map M.lnorm
  let kl : ℚ :=
    match target with
    | some t =>
      let sLen := t.length
      vecMean (zip4With (normal_kl M.exp)
        (meanLastDim ((M.gpMeanT t).map (fun v => [v])))
        (meanLastDim ((M.gpVarT t).map (fun v => [v])))
        (meanLastDim (lastRows sLen mu))
        (meanLastDim (lastRows sLen sigma)))
    | none => 0
  (output, kl)

/-- The encoder of step 3 as the spec's sentence reads it, with the softmax
taken over the *feature* axis: per timestep, i.e. along the columns of the
(feature, time) layout. Stated only for comparison against the source-derived
`encStack`. -/
def encStackSpecFeatureSoftmax (rexp : ℚ → ℚ) (w1 : List (List (List ℚ)))
    (b1 : List ℚ) (w2 : List (List (List ℚ))) (b2 : List ℚ)
    (bn : List (List ℚ) → List (List ℚ)) (xin : List (List ℚ)) : List (List ℚ) :=
  softmaxRows rexp (transposeM (bn (conv1d w2 b2 (conv1d w1 b1 (transposeM xin)))))

/-! ## `Transformer` (source lines 350–402) -/

/-- The value returned by `Transformer.forward`: a 2-tuple with the KL loss
when the process model is enabled, a bare tensor otherwise. -/
inductive TOut where
  | pair (output : List (List ℚ)) (kl : ℚ)
  | single (output : List (List ℚ))
deriving DecidableEq

/-- `nn.Linear(d_model, 1, bias=False)`: each timestep projected to one
scalar by the weight row `w`. -/
def projNoBias (w : List ℚ) (m : List (List ℚ)) : List (List ℚ) :=
  m.map (fun v => [dotProd w v])

/-- The configuration and parameters of one `Transformer` instance. The
encoder and decoder stacks are carried as whole functions (their per-layer
structure is embedded separately for the mask claim); `pm` is the
`process_model` submodule, present meaningfully only when `pModel` is set. -/
structure TransformerM where
  predLen : ℕ
  pModel : Bool
  encEmbW : List (List ℚ)
  encEmbB : List ℚ
  decEmbW : List (List ℚ)
  decEmbB : List ℚ
  projW : List ℚ
  encF : List (List ℚ) → List (List ℚ)
  decF : List (List ℚ) → List (List ℚ) → List (List ℚ)
  pm : PModel

/-- The decoder activations entering the output stage of
`Transformer.forward`: embed both inputs, run the encoder, then the decoder
conditioned on the encoder output. -/
def tfDecOut (T : TransformerM) (encIn decIn : List (List ℚ)) : List (List ℚ) :=
  T.decF (linRows T.decEmbW T.decEmbB decIn) (T.encF (linRows T.encEmbW T.encEmbB encIn))

/-- `Transformer.forward` (source lines 385–402) on one batch element, with
the process model's noise draws externalized. -/
def tfForward (T : TransformerM) (encIn decIn eps zn : List (List ℚ))
    (target : Option (List ℚ)) : TOut :=
  let decOut := tfDecOut T encIn decIn
  if T.pModel then
    let r := pmForward T.pm decOut eps zn target
    TOut.pair (projNoBias T.projW (lastRows T.predLen r.1)) r.2
  else
    TOut.single (projNoBias T.projW (lastRows T.predLen decOut))

/-! ## Global RNG seeding (source lines 357–359) -/

/-- The three process-wide RNG subsystems touched by `Transformer.__init__`:
`torch.manual_seed`, `random.seed`, `np.random.seed`. States are abstract
naturals. -/
structure GlobalRNG where
  torchState : ℕ
  pyState : ℕ
  npState : ℕ
deriving DecidableEq

/-- The three seeding calls at the top of `Transformer.__init__`: each
subsystem's state becomes a function of the single seed alone, discarding
whatever state was there before. -/
def seedAll (seed : ℕ) (_g : GlobalRNG) : GlobalRNG :=
  { torchState := seed, pyState := seed, npState := seed }

/-- Construct a `Transformer` and run one forward pass: seed the global RNG,
draw the model's parameters from the framework RNG (`initDraw`), draw the two
forward-pass noise tensors from the post-construction framework RNG
(`noiseDraw`), and evaluate `Transformer.forward`. -/
def constructAndForward (initDraw : ℕ → TransformerM × ℕ)
    (noiseDraw : ℕ → (List (List ℚ) × List (List ℚ)) × ℕ) (seed : ℕ)
    (g : GlobalRNG) (encIn decIn : List (List ℚ)) (target : Option (List ℚ)) :
    TOut :=
  let g1 := seedAll seed g
  let p := initDraw g1.torchState
  let nd := noiseDraw p.2
  tfForward p.1 encIn decIn nd.1.1 nd.1.2 target

/-! ## Helper lemmas -/

theorem tabulate_length (n : ℕ) (f : ℕ → α) : (tabulate n f).length = n := by
  induction n generalizing f with
  | zero => rfl
  | succ n ih => simp [tabulate, ih]

theorem tabulate_getD (f : ℕ → α) (d : α) {n i : ℕ} (h : i < n) :
    (tabulate n f).getD i d = f i := by
  induction n generalizing f i with
  | zero => omega
  | succ n ih =>
    cases i with
    | zero => rfl
    | succ i => simpa [tabulate] using ih (fun j => f (j + 1)) (by omega)

theorem getD_replicate_lt (x d : α) {n b : ℕ} (h : b < n) :
    (List.replicate n x).getD b d = x := by
  induction n generalizing b with
  | zero => omega
  | succ n ih =>
    cases b with
    | zero => rfl
    | succ b => simpa [List.replicate] using ih (by omega)

theorem getD_map_lt (f : α → β) (l : List α) (d : β) (d0 : α) {i : ℕ}
    (h : i < l.length) : (l.map f).getD i d = f (l.getD i d0) := by
  induction l generalizing i with
  | nil => simp at h
  | cons a as ih =>
    cases i with
    | zero => rfl
    | succ i => simpa using ih (by simpa using h)

theorem getD_zipWith_lt (f : α → β → γ) (A : List α) (B : List β) (d : γ)
    (d1 : α) (d2 : β) {i : ℕ} (ha : i < A.length) (hb : i < B.length) :
    (List.zipWith f A B).getD i d = f (A.getD i d1) (B.getD i d2) := by
  induction A generalizing B i with
  | nil => simp at ha
  | cons a as ih =>
    cases B with
    | nil => simp at hb
    | cons b bs =>
      cases i with
      | zero => rfl
      | succ i => simpa using ih bs (by simpa using ha) (by simpa using hb)

theorem seqMap_eq_some_map (f : α → Option β) (g : α → β) (l : List α)
    (h : ∀ a ∈ l, f a = some (g a)) : seqMap f l = some (l.map g) := by
  induction l with
  | nil => rfl
  | cons a as ih =>
    have ha : f a = some (g a) := h a (List.mem_cons_self a as)
    have has : seqMap f as = some (as.map g) :=
      ih (fun x hx => h x (List.mem_cons_of_mem a hx))
    simp [seqMap, ha, has]

theorem seqMap_cons_none (f : α → Option β) (a : α) (l : List α)
    (h : f a = none) : seqMap f (a :: l) = none := by
  simp [seqMap, h]

theorem map_zip_eq_zipWith (f : α → β → γ) (A : List α) (B : List β) :
    (A.zip B).map (fun ab => f ab.1 ab.2) = List.zipWith f A B := by
  induction A generalizing B with
  | nil => simp
  | cons a as ih =>
    cases B with
    | nil => simp
    | cons b bs => simp [ih]

/-! ## Theorems for claim C3 -/

/-- Claim C3: the decoder self-attention mask of a decoder input with batch
size `B` and time length `T` is the strict upper-triangular matrix (entry
`(b, i, j)` is `1` exactly when `j > i`, `0` on and below the diagonal); the
mask is computed once from the decoder input's dimensions and every decoder
layer receives exactly that mask for self-attention and no mask for
cross-attention. -/
theorem decoder_causal_mask_spec :
    (∀ B T b i j, b < B → i < T → j < T →
      maskEntry (get_attn_subsequent_mask B T) b i j = if i < j then 1 else 0) ∧
    (∀ posEmb layers decIn encOut,
      (decoderForwardTrace posEmb layers decIn encOut).2 =
        List.replicate layers.length
          (some (get_attn_subsequent_mask decIn.length (decIn.headD []).length),
            (none : MaskOpt))) := by
  constructor
  · intro B T b i j hb hi hj
    unfold maskEntry get_attn_subsequent_mask
    rw [getD_replicate_lt _ _ hb, tabulate_getD _ _ hi, tabulate_getD _ _ hj]
    rcases Nat.lt_or_ge i j with h | h
    · rw [if_pos (by omega), if_pos h]
    · rw [if_neg (by omega), if_neg (by omega)]
  · intro posEmb layers decIn encOut
    unfold decoderForwardTrace
    generalize posEmb decIn = dec0
    generalize get_attn_subsequent_mask decIn.length (decIn.headD []).length = m
    suffices h : ∀ (ls : List DecLayerF) (acc0 : List (List (List ℚ)))
        (tr : List (MaskOpt × MaskOpt)),
        (ls.foldl
          (fun acc layer => (layer acc.1 encOut (some m) none, acc.2 ++ [(some m, none)]))
          (acc0, tr)).2 = tr ++ List.replicate ls.length (some m, none) by
      simpa using h layers dec0 []
    intro ls
    induction ls with
    | nil => intro acc0 tr; simp
    | cons l ls ih =>
      intro acc0 tr
      simp only [List.foldl_cons, List.length_cons, ih]
      simp [List.replicate_succ]

/-- Concrete instantiation of claim C3's theorem: for `T = 5`, entry `(1, 3)`
of the mask is `1` (a future position) and entry `(3, 3)` is `0` (the
diagonal), and a two-layer decoder trace hands the same mask to both layers. -/
theorem decoder_causal_mask_spec_witness :
    maskEntry (get_attn_subsequent_mask 1 5) 0 1 3 = 1 ∧
    maskEntry (get_attn_subsequent_mask 1 5) 0 3 3 = 0 ∧
    (decoderForwardTrace id [fun d _ _ _ => d, fun d _ _ _ => d]
        [[[1, 0], [0, 1], [1, 1]]] [[[0, 0]]]).2 =
      List.replicate 2 (some (get_attn_subsequent_mask 1 3), (none : MaskOpt)) := by
  refine ⟨?_, ?_, ?_⟩
  · have h := decoder_causal_mask_spec.1 1 5 0 1 3 (by omega) (by omega) (by omega)
    simpa using h
  · have h := decoder_causal_mask_spec.1 1 5 0 3 3 (by omega) (by omega) (by omega)
    simpa using h
  · have h := decoder_causal_mask_spec.2 id [fun d _ _ _ => d, fun d _ _ _ => d]
      [[[1, 0], [0, 1], [1, 1]]] [[[0, 0]]]
    simpa using h

/-! ## Theorems for claim C2 -/

/-- Claim C2 counterexample: the tag `"unknown_attention"` is not one of the
recognized strategy tags, yet `MultiHeadAttention.__init__` accepts it without
any error (construction succeeds), and at forward time the dispatch chain
silently selects the `AutoCorrelation` strategy through the final `else` —
the unrecognized tag is not rejected at model-construction time. -/
theorem mha_unknown_tag_not_rejected :
    isRecognized "unknown_attention" = false ∧
    MultiHeadAttention.init 8 2 2 4 "unknown_attention" 0 =
      some ⟨8, 2, 2, 4, "unknown_attention", 0⟩ ∧
    selectStrategy "unknown_attention" = Strategy.AutoCorrelation := by
  refine ⟨by decide, rfl, by decide⟩

/-- Claim C2 as amended: exactly one strategy is selected per forward call
(the dispatch is a total function of the configured tag), but the tag set is
not validated at construction: `MultiHeadAttention.__init__` accepts every
tag, and a tag outside the recognized set is dispatched to the
`AutoCorrelation` strategy by the final `else` branch at forward time instead
of being rejected. -/
theorem mha_dispatch_spec (d_model d_k d_v n_heads seed : ℕ) (attn_type : String)
    (h : isRecognized attn_type = false) :
    MultiHeadAttention.init d_model d_k d_v n_heads attn_type seed =
      some ⟨d_model, d_k, d_v, n_heads, attn_type, seed⟩ ∧
    selectStrategy attn_type = Strategy.AutoCorrelation := by
  refine ⟨rfl, ?_⟩
  unfold selectStrategy
  unfold isRecognized at h
  simp only [Bool.or_eq_false_iff, decide_eq_false_iff_not] at h
  obtain ⟨⟨⟨⟨h1, h2⟩, h3⟩, h4⟩, h5⟩ := h
  rw [if_neg h1, if_neg (by simpa using h2), if_neg h3, if_neg h4, if_neg h5]

/-- Concrete instantiation of the amended claim C2 theorem at the
unrecognized tag `"transformer"`. -/
theorem mha_dispatch_spec_witness :
    MultiHeadAttention.init 16 4 4 4 "transformer" 9 =
      some ⟨16, 4, 4, 4, "transformer", 9⟩ ∧
    selectStrategy "transformer" = Strategy.AutoCorrelation :=
  mha_dispatch_spec 16 4 4 4 9 "transformer" (by decide)

/-! ## Theorem for claim C5 -/

/-- Claim C5: `Transformer.forward` returns the 2-tuple `(output, kl_loss)`
when the model was constructed with the process-model flag set, and a single
tensor otherwise; in both cases the output is the final `pred_len` timesteps
of the (post-process-model, when enabled) decoder activations projected to
one scalar per timestep by the bias-free linear map `projW`. -/
theorem transformer_forward_arity (T : TransformerM)
    (encIn decIn eps zn : List (List ℚ)) (target : Option (List ℚ)) :
    tfForward T encIn decIn eps zn target =
      if T.pModel then
        TOut.pair
          (projNoBias T.projW
            (lastRows T.predLen (pmForward T.pm (tfDecOut T encIn decIn) eps zn target).1))
          (pmForward T.pm (tfDecOut T encIn decIn) eps zn target).2
      else
        TOut.single (projNoBias T.projW (lastRows T.predLen (tfDecOut T encIn decIn))) := by
  rfl

/-! ## Theorem for claim C7 -/

/-- Claim C7: with `target = None`, `process_model.forward` returns
`kl_loss = 0` exactly, for every input, every noise draw, and regardless of
whether GP mode is enabled. -/
theorem process_model_kl_zero_without_target (M : PModel)
    (x eps zn : List (List ℚ)) :
    (pmForward M x eps zn none).2 = 0 := by
  rfl

/-! ## Theorem for claim C9 -/

/-- Claim C9: `Transformer.__init__` reseeds all three global RNG subsystems
from the single provided seed, so constructing and running two models with the
same seed and the same inputs yields identical outputs whatever the prior
global RNG states were (two-run determinism). -/
theorem transformer_seeding_determinism (initDraw : ℕ → TransformerM × ℕ)
    (noiseDraw : ℕ → (List (List ℚ) × List (List ℚ)) × ℕ) (seed : ℕ)
    (g g' : GlobalRNG) (encIn decIn : List (List ℚ)) (target : Option (List ℚ)) :
    constructAndForward initDraw noiseDraw seed g encIn decIn target =
      constructAndForward initDraw noiseDraw seed g' encIn decIn target := by
  rfl

/-! ## Theorems for claim C1 -/

/-- Claim C1 as amended: the output of `process_model.forward` is
`LayerNorm(y + x_noisy)` where `x_noisy` is the input *after* the in-place
noise injection of step 2 — because `x.add_` mutates `x`, the residual
connection does not skip the noise. -/
theorem process_model_residual_uses_noised_input (M : PModel)
    (x eps zn : List (List ℚ)) (target : Option (List ℚ)) :
    (pmForward M x eps zn target).1 =
      (matAdd (pmY M x eps zn) (pmNoisy M x eps)).map M.lnorm := by
  cases target <;> rfl

/-- A tiny concrete `process_model` used for counterexamples: one feature,
zero convolution weights, identity batch norm and layer norm, GP mode off,
and the library `exp` frozen to the constant `0`. -/
def pmC1 : PModel where
  d := 1
  encW1 := [[[0, 0, 0]]]
  encB1 := [0]
  encW2 := [[[0, 0, 0]]]
  encB2 := [0]
  bn1 := id
  musigW := [[0], [0]]
  musigB := [0, 0]
  decW1 := [[[0, 0, 0]]]
  decB1 := [0]
  decW2 := [[[0, 0, 0]]]
  decB2 := [0]
  bn2 := id
  lnorm := id
  gp := false
  gpMeanX := fun _ => []
  gpVarX := fun _ => []
  gpMeanT := fun _ => []
  gpVarT := fun _ => []
  gpProjMeanW := []
  gpProjMeanB := []
  gpProjVarW := []
  gpProjVarB := []
  exp := fun _ => 0

/-- Claim C1 counterexample: for `x = [[1]]` and input-noise draw
`eps = [[10]]` (so the injected noise is `0.1 · 10 = 1` and the input is
mutated to `[[2]]`), the returned output is `[[2]]`, which differs from
`LayerNorm(y + x)` with `x` the original pre-noise input — that would be
`[[1]]`. The residual therefore does not skip the noise injection. -/
theorem process_model_residual_counterexample :
    (pmForward pmC1 [[1]] [[10]] [[0]] none).1 ≠
      (matAdd (pmY pmC1 [[1]] [[10]] [[0]]) [[1]]).map pmC1.lnorm := by
  have h1 : (pmForward pmC1 [[1]] [[10]] [[0]] none).1 = [[2]] := by
    with_unfolding_all rfl
  have h2 : (matAdd (pmY pmC1 [[1]] [[10]] [[0]]) [[1]]).map pmC1.lnorm = [[1]] := by
    with_unfolding_all rfl
  rw [h1, h2]
  with_unfolding_all decide

/-! ## Theorem for claim C4 -/

/-- Claim C4: with a target of length `L`, the returned `kl_loss` is the mean
reduction of the closed-form Gaussian KL term
`0.5 * (-1 + logvar2 - logvar1 + exp(logvar1 - logvar2) + (mean1 - mean2)^2 *
exp(-logvar2))`, evaluated between the target-GP posterior statistics (as
`mean1`/`logvar1`) and the predicted mean/log-variance restricted to the last
`L` timesteps (as `mean2`/`logvar2`), each first averaged over its last
(feature) axis. -/
theorem process_model_kl_loss_formula (M : PModel) (x eps zn : List (List ℚ))
    (t : List ℚ) :
    (∀ mean1 logvar1 mean2 logvar2 : ℚ,
      normal_kl M.exp mean1 logvar1 mean2 logvar2 =
        (1 / 2) * (-1 + logvar2 - logvar1 + M.exp (logvar1 - logvar2) +
          ((mean1 - mean2) ^ 2) * M.exp (-logvar2))) ∧
    (pmForward M x eps zn (some t)).2 =
      vecMean (zip4With (normal_kl M.exp)
        (meanLastDim ((M.gpMeanT t).map (fun v => [v])))
        (meanLastDim ((M.gpVarT t).map (fun v => [v])))
        (meanLastDim (lastRows t.length (pmMu M x eps)))
        (meanLastDim (lastRows t.length (pmSigma M x eps)))) := by
  exact ⟨fun _ _ _ _ => rfl, rfl⟩

/-! ## Theorems for claim C6 -/

theorem windows3_length (l : List ℚ) : (windows3 l).length = l.length - 2 := by
  induction l with
  | nil => rfl
  | cons a l ih =>
    cases l with
    | nil => rfl
    | cons b l2 =>
      cases l2 with
      | nil => rfl
      | cons c rest =>
        simp only [windows3, List.length_cons, ih]
        omega

/-- Claim C6 as amended: the process model's convolutional encoder applies, in
order, two 1-D convolutions with kernel size 3 and same-padding (each output
channel keeps the input's time length), then batch normalization, then a
softmax over the last axis of the permuted (feature, time) layout — i.e. over
the *time* axis, not the feature axis; the result feeds the learned `musig`
linear map whose output is split in half along the feature axis into mean and
log-variance, and the latent is `z = mean + exp(0.5 * logvar) * noise`. -/
theorem process_encoder_pipeline_spec (M : PModel) (x eps zn : List (List ℚ)) :
    pmMusig M x eps =
      linRows M.musigW M.musigB
        (transposeM (softmaxRows M.exp
          (M.bn1 (conv1d M.encW2 M.encB2
            (conv1d M.encW1 M.encB1 (transposeM (pmNoisy M x eps))))))) ∧
    (∀ (wi : List ℚ) (xi : List ℚ),
      ((windows3 (pad1 xi)).map (taps3 wi)).length = xi.length) ∧
    pmMu M x eps = (pmMusig M x eps).map (List.take M.d) ∧
    pmSigma M x eps = (pmMusig M x eps).map (fun r => r.drop (r.length - M.d)) ∧
    pmZ M x eps zn =
      matAdd (pmMu M x eps)
        (hadamard (matMap (fun q => M.exp (q * (1 / 2))) (pmSigma M x eps)) zn) := by
  refine ⟨rfl, ?_, rfl, rfl, rfl⟩
  intro wi xi
  simp [windows3_length, pad1]

/-- A concrete `process_model` encoder configuration distinguishing the two
softmax axes: two features, three timesteps, zero convolutions, identity batch
norm, and the library `exp` frozen to the constant `1` (so a softmax over an
axis of length `n` returns `1/n`). -/
def pmC6 : PModel where
  d := 2
  encW1 := [[[0, 0, 0], [0, 0, 0]], [[0, 0, 0], [0, 0, 0]]]
  encB1 := [0, 0]
  encW2 := [[[0, 0, 0], [0, 0, 0]], [[0, 0, 0], [0, 0, 0]]]
  encB2 := [0, 0]
  bn1 := id
  musigW := [[0, 0], [0, 0], [0, 0], [0, 0]]
  musigB := [0, 0, 0, 0]
  decW1 := [[[0, 0, 0], [0, 0, 0]], [[0, 0, 0], [0, 0, 0]]]
  decB1 := [0, 0]
  decW2 := [[[0, 0, 0], [0, 0, 0]], [[0, 0, 0], [0, 0, 0]]]
  decB2 := [0, 0]
  bn2 := id
  lnorm := id
  gp := false
  gpMeanX := fun _ => []
  gpVarX := fun _ => []
  gpMeanT := fun _ => []
  gpVarT := fun _ => []
  gpProjMeanW := []
  gpProjMeanB := []
  gpProjVarW := []
  gpProjVarB := []
  exp := fun _ => 1

/-- Claim C6 counterexample: on a 3-timestep, 2-feature zero input, the
source's encoder (softmax along `dim=-1` of the permuted (feature, time)
layout, i.e. over the 3 timesteps) yields entries `1/3`, while a softmax over
the feature axis — what the claim states — would yield entries `1/2`. The
claim's feature-axis softmax does not match the code. -/
theorem process_encoder_softmax_axis_counterexample :
    encStack pmC6.exp pmC6.encW1 pmC6.encB1 pmC6.encW2 pmC6.encB2 pmC6.bn1
        [[0, 0], [0, 0], [0, 0]] ≠
      encStackSpecFeatureSoftmax pmC6.exp pmC6.encW1 pmC6.encB1 pmC6.encW2 pmC6.encB2
        pmC6.bn1 [[0, 0], [0, 0], [0, 0]] := by
  have h1 : encStack pmC6.exp pmC6.encW1 pmC6.encB1 pmC6.encW2 pmC6.encB2 pmC6.bn1
      [[0, 0], [0, 0], [0, 0]] =
      [[1 / 3, 1 / 3], [1 / 3, 1 / 3], [1 / 3, 1 / 3]] := by
    with_unfolding_all rfl
  have h2 : encStackSpecFeatureSoftmax pmC6.exp pmC6.encW1 pmC6.encB1 pmC6.encW2
      pmC6.encB2 pmC6.bn1 [[0, 0], [0, 0], [0, 0]] =
      [[1 / 2, 1 / 2], [1 / 2, 1 / 2], [1 / 2, 1 / 2]] := by
    with_unfolding_all rfl
  rw [h1, h2]
  with_unfolding_all decide

/-! ## Lemmas about the strided-slice assignment -/

theorem fillStride2_length (flag : Bool) (row vals : List ℚ) :
    (fillStride2 flag row vals).length = row.length := by
  induction row generalizing flag vals with
  | nil => cases flag <;> cases vals <;> rfl
  | cons x rest ih =>
    cases flag <;> cases vals <;> simp [fillStride2, ih]

/-- Positions outside the written stride-2 slice keep their previous values:
odd positions for the `0::2` slice, even positions for the `1::2` slice. -/
theorem fillStride2_preserve (row vals : List ℚ) (m : ℕ) :
    (fillStride2 true row vals).getD (2 * m + 1) 0 = row.getD (2 * m + 1) 0 ∧
    (fillStride2 false row vals).getD (2 * m) 0 = row.getD (2 * m) 0 := by
  induction row generalizing vals m with
  | nil => cases vals <;> exact ⟨rfl, rfl⟩
  | cons x rest ih =>
    constructor
    · cases vals with
      | nil => rfl
      | cons v vs =>
        show (v :: fillStride2 false rest vs).getD (2 * m + 1) 0 = _
        have h2 : 2 * m + 1 = (2 * m) + 1 := rfl
        simpa using (ih vs m).2
    · cases vals with
      | nil => rfl
      | cons v vs =>
        cases m with
        | zero => rfl
        | succ k =>
          show (x :: fillStride2 true rest (v :: vs)).getD (2 * (k + 1)) 0 = _
          have h1 : 2 * (k + 1) = (2 * k + 1) + 1 := by omega
          rw [h1]
          simpa using (ih (v :: vs) k).1

/-- Positions inside the written stride-2 slice receive the source values in
order. -/
theorem fillStride2_write (row vals : List ℚ) (m : ℕ) :
    (2 * m < row.length → m < vals.length →
      (fillStride2 true row vals).getD (2 * m) 0 = vals.getD m 0) ∧
    (2 * m + 1 < row.length → m < vals.length →
      (fillStride2 false row vals).getD (2 * m + 1) 0 = vals.getD m 0) := by
  induction row generalizing vals m with
  | nil => exact ⟨fun h => absurd h (by simp), fun h => absurd h (by simp)⟩
  | cons x rest ih =>
    constructor
    · intro hr hv
      cases vals with
      | nil => simp at hv
      | cons v vs =>
        cases m with
        | zero => rfl
        | succ k =>
          show (v :: fillStride2 false rest vs).getD (2 * (k + 1)) 0 = _
          have h1 : 2 * (k + 1) = (2 * k + 1) + 1 := by omega
          rw [h1]
          have := (ih vs k).2 (by simp at hr; omega) (by simp at hv; omega)
          simpa using this
    · intro hr hv
      cases vals with
      | nil => simp at hv
      | cons v vs =>
        show (x :: fillStride2 true rest (v :: vs)).getD (2 * m + 1) 0 = _
        have := (ih (v :: vs) m).1 (by simp at hr; omega) (by simpa using hv)
        simpa using this

theorem assignSlice2_true_eq (d : ℕ) (P V : List (List ℚ)) :
    assignSlice2 true d ((d + 1) / 2) P V =
      some (List.zipWith (fun p v => fillStride2 true p v) P V) := by
  simp [assignSlice2, stride2Count]

theorem assignSlice2_false_none (d srcW : ℕ) (h1 : srcW ≠ d / 2) (h2 : srcW ≠ 1)
    (P V : List (List ℚ)) : assignSlice2 false d srcW P V = none := by
  simp [assignSlice2, stride2Count, h1, h2]

theorem assignSlice2_false_eq (d srcW : ℕ) (h : srcW = d / 2) (P V : List (List ℚ)) :
    assignSlice2 false d srcW P V =
      some (List.zipWith (fun p v => fillStride2 false p v) P V) := by
  simp [assignSlice2, stride2Count, h]

/-! ## Theorems for claim C10 -/

/-- Claim C10 as amended: building the sinusoidal table fails for every *odd
feature width `d_hid ≥ 3`* — the `⌈d_hid/2⌉ ≥ 2` cosine columns cannot fit
the `⌊d_hid/2⌋` odd-indexed slots — and succeeds for every even `d_hid`; but
for `d_hid = 1` construction also succeeds, because the single cosine column
broadcasts (size-1 dimension) into the empty odd-indexed slice. -/
theorem posenc_construction_width_spec (sinf cosf pw : ℚ → ℚ) (d maxLen : ℕ) :
    (Odd d → 3 ≤ d → buildP sinf cosf pw d maxLen = none) ∧
    (Even d → (buildP sinf cosf pw d maxLen).isSome = true) ∧
    ((buildP sinf cosf pw 1 maxLen).isSome = true) := by
  refine ⟨?_, ?_, ?_⟩
  · intro hodd hge
    obtain ⟨k, hk⟩ := hodd
    unfold buildP
    rw [assignSlice2_true_eq, Option.some_bind]
    exact assignSlice2_false_none d _ (by omega) (by omega) _ _
  · intro heven
    obtain ⟨k, hk⟩ := heven
    unfold buildP
    rw [assignSlice2_true_eq, Option.some_bind]
    rw [assignSlice2_false_eq d _ (by omega)]
    rfl
  · unfold buildP
    rw [assignSlice2_true_eq, Option.some_bind]
    simp [assignSlice2, stride2Count]

/-- Claim C10 counterexample: `d_hid = 1` is odd, yet the table construction
succeeds (the cosine column broadcasts into the empty odd-indexed slice), so
"for every odd `d_hid`, building the sinusoidal table fails" is false. -/
theorem posenc_construction_width_counterexample :
    Odd 1 ∧
    (buildP (fun q => q) (fun q => q) (fun _ => 1) 1 3).isSome = true := by
  constructor
  · exact ⟨0, rfl⟩
  · with_unfolding_all rfl

/-- Concrete instantiation of the amended claim C10 theorem: width 5 (odd,
`≥ 3`) fails, width 4 (even) succeeds. -/
theorem posenc_construction_width_spec_witness :
    buildP (fun q => q) (fun q => q) (fun _ => 1) 5 2 = none ∧
    (buildP (fun q => q) (fun q => q) (fun _ => 1) 4 2).isSome = true := by
  constructor
  · exact (posenc_construction_width_spec _ _ _ 5 2).1 ⟨2, rfl⟩ (by omega)
  · exact (posenc_construction_width_spec _ _ _ 4 2).2.1 ⟨2, rfl⟩

/-! ## Structure of a successfully built positional-encoding table -/

theorem buildP_some_struct {sinf cosf pw : ℚ → ℚ} {d maxLen : ℕ}
    {P : List (List ℚ)} (h : buildP sinf cosf pw d maxLen = some P) :
    (P = List.zipWith (fun p v => fillStride2 false p v)
        (List.zipWith (fun p v => fillStride2 true p v)
          (List.replicate maxLen (List.replicate d (0 : ℚ)))
          ((freqX pw d maxLen).map (fun r => r.map sinf)))
        ((freqX pw d maxLen).map (fun r => r.map cosf)) ∧
      (d + 1) / 2 = d / 2) ∨
    (P = List.zipWith
        (fun p v => fillStride2 false p (List.replicate (d / 2) (v.headD 0)))
        (List.zipWith (fun p v => fillStride2 true p v)
          (List.replicate maxLen (List.replicate d (0 : ℚ)))
          ((freqX pw d maxLen).map (fun r => r.map sinf)))
        ((freqX pw d maxLen).map (fun r => r.map cosf)) ∧
      ¬(d + 1) / 2 = d / 2 ∧ (d + 1) / 2 = 1) := by
  unfold buildP at h
  rw [assignSlice2_true_eq, Option.some_bind] at h
  unfold assignSlice2 at h
  simp only [stride2Count] at h
  by_cases h1 : (d + 1) / 2 = d / 2
  · rw [if_pos h1] at h
    exact Or.inl ⟨(Option.some.inj h).symm, h1⟩
  · rw [if_neg h1] at h
    by_cases h2 : (d + 1) / 2 = 1
    · rw [if_pos h2] at h
      exact Or.inr ⟨(Option.some.inj h).symm, h1, h2⟩
    · rw [if_neg h2] at h
      exact absurd h (by simp)

theorem mem_zipWith_fill_length (flag : Bool) (g : List ℚ → List ℚ) (d : ℕ)
    (P V : List (List ℚ)) (hP : ∀ p ∈ P, p.length = d) :
    ∀ r ∈ List.zipWith (fun p v => fillStride2 flag p (g v)) P V, r.length = d := by
  induction P generalizing V with
  | nil => simp
  | cons p ps ih =>
    cases V with
    | nil => simp
    | cons v vs =>
      intro r hr
      rcases List.mem_cons.1 hr with h | h
      · subst h
        rw [fillStride2_length]
        exact hP p (List.mem_cons_self p ps)
      · exact ih vs (fun q hq => hP q (List.mem_cons_of_mem p hq)) r h

theorem buildP_some_shape {sinf cosf pw : ℚ → ℚ} {d maxLen : ℕ}
    {P : List (List ℚ)} (h : buildP sinf cosf pw d maxLen = some P) :
    P.length = maxLen ∧ ∀ r ∈ P, r.length = d := by
  have hrep : ∀ p ∈ List.replicate maxLen (List.replicate d (0 : ℚ)), p.length = d := by
    intro p hp
    rw [List.eq_of_mem_replicate hp]
    exact List.length_replicate d 0
  have hmid : ∀ r ∈ List.zipWith (fun p v => fillStride2 true p v)
      (List.replicate maxLen (List.replicate d (0 : ℚ)))
      ((freqX pw d maxLen).map (fun r => r.map sinf)), r.length = d :=
    mem_zipWith_fill_length true (fun v => v) d _ _ hrep
  rcases buildP_some_struct h with ⟨hP, _⟩ | ⟨hP, _, _⟩ <;> subst hP <;>
    refine ⟨?_, ?_⟩
  · simp [List.length_zipWith, freqX, tabulate_length]
  · exact mem_zipWith_fill_length false (fun v => v) d _ _ hmid
  · simp [List.length_zipWith, freqX, tabulate_length]
  · exact mem_zipWith_fill_length false
      (fun v => List.replicate (d / 2) (v.headD 0)) d _ _ hmid

theorem fillPair_even (s vals : List ℚ) (d m : ℕ) (h2m : 2 * m < d)
    (hs : m < s.length) :
    (fillStride2 false (fillStride2 true (List.replicate d 0) s) vals).getD (2 * m) 0 =
      s.getD m 0 := by
  rw [(fillStride2_preserve _ vals m).2]
  exact (fillStride2_write (List.replicate d 0) s m).1 (by simpa using h2m) hs

theorem fillPair_odd (s vals : List ℚ) (d m : ℕ) (hlt : 2 * m + 1 < d)
    (hv : m < vals.length) :
    (fillStride2 false (fillStride2 true (List.replicate d 0) s) vals).getD
        (2 * m + 1) 0 = vals.getD m 0 := by
  refine (fillStride2_write _ vals m).2 ?_ hv
  rw [fillStride2_length, List.length_replicate]
  omega

/-- Entries of a successfully built table: even feature index `j` holds
`sin` of the angle at frequency index `j`, odd `j` holds `cos` of the angle at
frequency index `j - 1`. -/
theorem buildP_entry {sinf cosf pw : ℚ → ℚ} {d maxLen : ℕ} {P : List (List ℚ)}
    (h : buildP sinf cosf pw d maxLen = some P) {p j : ℕ}
    (hp : p < maxLen) (hj : j < d) :
    (P.getD p []).getD j 0 =
      if j % 2 = 0 then sinf (angle pw p j d) else cosf (angle pw p (j - 1) d) := by
  have hXlen : (freqX pw d maxLen).length = maxLen := by
    simp [freqX, tabulate_length]
  have hXrow : (freqX pw d maxLen).getD p [] =
      tabulate ((d + 1) / 2) (fun c => angle pw p (2 * c) d) := by
    unfold freqX
    exact tabulate_getD _ _ hp
  have hXrowlen : ((freqX pw d maxLen).getD p []).length = (d + 1) / 2 := by
    rw [hXrow, tabulate_length]
  have hSlen : ((freqX pw d maxLen).map (fun r => r.map sinf)).length = maxLen := by
    simpa using hXlen
  have hClen : ((freqX pw d maxLen).map (fun r => r.map cosf)).length = maxLen := by
    simpa using hXlen
  have hSrow : ((freqX pw d maxLen).map (fun r => r.map sinf)).getD p [] =
      ((freqX pw d maxLen).getD p []).map sinf :=
    getD_map_lt _ _ [] [] (lt_of_lt_of_eq hp hXlen.symm)
  have hCrow : ((freqX pw d maxLen).map (fun r => r.map cosf)).getD p [] =
      ((freqX pw d maxLen).getD p []).map cosf :=
    getD_map_lt _ _ [] [] (lt_of_lt_of_eq hp hXlen.symm)
  have hP1len : (List.zipWith (fun q v => fillStride2 true q v)
      (List.replicate maxLen (List.replicate d (0 : ℚ)))
      ((freqX pw d maxLen).map (fun r => r.map sinf))).length = maxLen := by
    simp [List.length_zipWith, hSlen]
  have hP1row : (List.zipWith (fun q v => fillStride2 true q v)
      (List.replicate maxLen (List.replicate d (0 : ℚ)))
      ((freqX pw d maxLen).map (fun r => r.map sinf))).getD p [] =
      fillStride2 true (List.replicate d 0)
        (((freqX pw d maxLen).getD p []).map sinf) := by
    rw [getD_zipWith_lt _ _ _ [] [] []
      (by rw [List.length_replicate]; exact hp) (lt_of_lt_of_eq hp hSlen.symm)]
    rw [getD_replicate_lt _ _ hp, hSrow]
  rcases buildP_some_struct h with ⟨hPst, hcond⟩ | ⟨hPst, hne, hone⟩
  · have hProw : P.getD p [] =
        fillStride2 false
          (fillStride2 true (List.replicate d 0)
            (((freqX pw d maxLen).getD p []).map sinf))
          (((freqX pw d maxLen).getD p []).map cosf) := by
      subst hPst
      rw [getD_zipWith_lt _ _ _ [] [] []
        (lt_of_lt_of_eq hp hP1len.symm) (lt_of_lt_of_eq hp hClen.symm)]
      rw [hP1row, hCrow]
    by_cases hj2 : j % 2 = 0
    · obtain ⟨m, rfl⟩ : ∃ m, j = 2 * m := ⟨j / 2, by omega⟩
      rw [hProw, fillPair_even _ _ d m hj (by rw [List.length_map, hXrowlen]; omega)]
      rw [getD_map_lt sinf _ 0 0 (by rw [hXrowlen]; omega)]
      rw [hXrow, tabulate_getD _ _ (by omega : m < (d + 1) / 2)]
      rw [if_pos hj2]
    · obtain ⟨m, rfl⟩ : ∃ m, j = 2 * m + 1 := ⟨j / 2, by omega⟩
      rw [hProw, fillPair_odd _ _ d m hj (by rw [List.length_map, hXrowlen]; omega)]
      rw [getD_map_lt cosf _ 0 0 (by rw [hXrowlen]; omega)]
      rw [hXrow, tabulate_getD _ _ (by omega : m < (d + 1) / 2)]
      rw [if_neg hj2]
      have hsub : 2 * m + 1 - 1 = 2 * m := by omega
      rw [hsub]
  · have hd1 : d = 1 := by omega
    subst hd1
    have hj0 : j = 0 := by omega
    subst hj0
    have hProw : P.getD p [] =
        fillStride2 false
          (fillStride2 true (List.replicate 1 0)
            (((freqX pw 1 maxLen).getD p []).map sinf))
          (List.replicate (1 / 2)
            ((((freqX pw 1 maxLen).map (fun r => r.map cosf)).getD p []).headD 0)) := by
      subst hPst
      rw [getD_zipWith_lt _ _ _ [] [] []
        (lt_of_lt_of_eq hp hP1len.symm) (lt_of_lt_of_eq hp hClen.symm)]
      rw [hP1row]
    have h0 : (0 : ℕ) = 2 * 0 := rfl
    rw [hProw]
    rw [h0, fillPair_even _ _ 1 0 (by omega) (by rw [List.length_map, hXrowlen]; omega)]
    rw [getD_map_lt sinf _ 0 0 (by rw [hXrowlen]; omega)]
    rw [hXrow, tabulate_getD _ _ (by omega : 0 < (1 + 1) / 2)]
    rfl

/-! ## Theorems for claim C8 -/

/-- Claim C8: for a rectangular batched input of time length `T` and feature
width `d` (the table's width), `PositionalEncoding.forward` returns the input
plus the precomputed table sliced to the input's time length whenever
`T ≤ maxLen`, with even feature indices holding sine values and odd indices
cosine values; and when `T` exceeds the precomputed maximum, the forward call
fails (the sliced table has `maxLen ≠ T` rows, a broadcast shape error). -/
theorem posenc_forward_spec (sinf cosf pw : ℚ → ℚ) (d maxLen : ℕ)
    (P : List (List ℚ)) (X : List (List (List ℚ)))
    (hP : buildP sinf cosf pw d maxLen = some P)
    (hrect : ∀ xb ∈ X, xb.length = (X.headD []).length ∧ ∀ r ∈ xb, r.length = d) :
    ((X.headD []).length ≤ maxLen →
      posEncForward P X = some (X.map (fun xb =>
        List.zipWith (List.zipWith (fun a b => a + b)) xb
          (P.take (X.headD []).length)))) ∧
    (maxLen < (X.headD []).length → 2 ≤ maxLen → posEncForward P X = none) ∧
    (∀ p j, p < maxLen → j < d →
      (P.getD p []).getD j 0 =
        if j % 2 = 0 then sinf (angle pw p j d) else cosf (angle pw p (j - 1) d)) := by
  obtain ⟨hPlen, hPwidth⟩ := buildP_some_shape hP
  refine ⟨?_, ?_, fun p j hp hj => buildP_entry hP hp hj⟩
  · intro hT
    show seqMap (fun xb => bcastAdd2 xb (P.take (X.headD []).length)) X = _
    apply seqMap_eq_some_map
    intro xb hxb
    obtain ⟨hxbLen, hxbW⟩ := hrect xb hxb
    have htake : (P.take (X.headD []).length).length = (X.headD []).length := by
      rw [List.length_take, hPlen]
      omega
    unfold bcastAdd2
    rw [if_pos (by rw [hxbLen, htake])]
    have hinner : seqMap (fun ab => bcastAdd1 ab.1 ab.2)
        (xb.zip (P.take (X.headD []).length)) =
        some ((xb.zip (P.take (X.headD []).length)).map
          (fun ab => List.zipWith (fun a b => a + b) ab.1 ab.2)) := by
      apply seqMap_eq_some_map
      intro ab hab
      obtain ⟨a, b⟩ := ab
      have hmem := List.of_mem_zip hab
      have haw : a.length = d := hxbW a hmem.1
      have hbw : b.length = d := hPwidth b (List.take_subset _ _ hmem.2)
      unfold bcastAdd1
      rw [if_pos (by rw [haw, hbw])]
    rw [hinner, map_zip_eq_zipWith]
  · intro hTgt hml
    cases X with
    | nil => simp at hTgt
    | cons xb rest =>
      cases xb with
      | nil => simp at hTgt
      | cons a xs =>
        cases xs with
        | nil => simp at hTgt; omega
        | cons b ys =>
          simp only [List.headD_cons, List.length_cons] at hTgt
          show seqMap
            (fun yb => bcastAdd2 yb (P.take ((a :: b :: ys) : List (List ℚ)).length))
            ((a :: b :: ys) :: rest) = none
          apply seqMap_cons_none
          have htake : (P.take ((a :: b :: ys) : List (List ℚ)).length).length = maxLen := by
            rw [List.length_take, hPlen]
            simp only [List.length_cons]
            omega
          obtain ⟨q1, q2, qs, hQ⟩ : ∃ q1 q2 qs,
              P.take ((a :: b :: ys) : List (List ℚ)).length = q1 :: q2 :: qs := by
            rcases hq : P.take ((a :: b :: ys) : List (List ℚ)).length with _ | ⟨q1, qtail⟩
            · rw [hq] at htake
              simp at htake
              omega
            · rcases qtail with _ | ⟨q2, qs⟩
              · rw [hq] at htake
                simp at htake
                omega
              · exact ⟨q1, q2, qs, rfl⟩
          rw [hQ]
          have hlen2 : ((q1 :: q2 :: qs) : List (List ℚ)).length = maxLen := by
            rw [← hQ]
            exact htake
          simp only [List.length_cons] at hlen2
          unfold bcastAdd2
          rw [if_neg (by simp only [List.length_cons]; omega)]

/-- Concrete instantiation of claim C8's theorem with the table built at
width 2 and maximum length 2 (abstract sin/cos frozen to the identity and the
power to the constant 1, so the table is `[[0, 0], [1, 1]]`): a length-1 input
gets the first table row added, a length-3 input fails, and entry `(1, 1)` of
the table is the cosine value `cos`-slot `1`. -/
theorem posenc_forward_spec_witness :
    buildP (fun q => q) (fun q => q) (fun _ => 1) 2 2 = some [[0, 0], [1, 1]] ∧
    posEncForward [[0, 0], [1, 1]] [[[5, 5]]] = some [[[5, 5]]] ∧
    posEncForward [[0, 0], [1, 1]] [[[1, 1], [2, 2], [3, 3]]] = none ∧
    (([[0, 0], [1, 1]] : List (List ℚ)).getD 1 []).getD 1 0 = 1 := by
  have hP : buildP (fun q => q) (fun q => q) (fun _ => 1) 2 2 =
      some [[0, 0], [1, 1]] := by
    with_unfolding_all rfl
  refine ⟨hP, ?_, ?_, ?_⟩
  · have h := (posenc_forward_spec (fun q => q) (fun q => q) (fun _ => 1) 2 2
      [[0, 0], [1, 1]] [[[5, 5]]] hP ?_).1 (by simp)
    · rw [h]
      with_unfolding_all rfl
    · intro xb hxb
      simp only [List.mem_singleton] at hxb
      subst hxb
      exact ⟨rfl, by intro r hr; simp only [List.mem_singleton] at hr; subst hr; rfl⟩
  · have h := (posenc_forward_spec (fun q => q) (fun q => q) (fun _ => 1) 2 2
      [[0, 0], [1, 1]] [[[1, 1], [2, 2], [3, 3]]] hP ?_).2.1 (by simp) (by omega)
    · exact h
    · intro xb hxb
      simp only [List.mem_singleton] at hxb
      subst hxb
      refine ⟨rfl, ?_⟩
      intro r hr
      simp only [List.mem_cons, List.not_mem_nil, or_false] at hr
      rcases hr with h1 | h1 | h1 <;> subst h1 <;> rfl
  · have h := (posenc_forward_spec (fun q => q) (fun q => q) (fun _ => 1) 2 2
      [[0, 0], [1, 1]] [] hP (by simp)).2.2 1 1 (by omega) (by omega)
    rw [h]
    norm_num [angle]
